import Mathlib

/-!
Formalisation of the core of the "Seats at the Table - Decision Journey
Mapper" single-file application: the text-intake parser
(`normalizeText`, `splitCandidates`, `inferAxis`,
`buildDimensionsFromConsiderations`), the dimension/option data model
(`initOptions`, `addOption`, `removeOption`), the scoring engine
(`statusById` / `optionStatus`), the unit-square/canvas geometry
(`toSvg`, `fromSvg`, `pointInPolygon`) and the pointer-interaction state
machine of the map component (`step`).

Modelling conventions:
* JS strings are lists of characters (`Str`); JS numbers are exact
  rationals (`ℚ`).  `Math.sqrt` is not computable on `ℚ`, so the scoring
  record stores the squared distance (`Status.distSq`) and the distance
  `Real.sqrt distSq` appears at the statement level only.
* JS objects used as string-keyed records (`o.scores`,
  `Object.fromEntries`, object spreads) are association lists where a
  later entry shadows an earlier one; `recGet` is the corresponding
  lookup.
* The random id generator `uid()` is modelled by an explicit id supply
  `ids : ℕ → Str`, consumed in call order.
-/

namespace DecisionMapper

/-- JS strings, modelled as lists of characters. -/
abbrev Str := List Char

/-- Turns a Lean string literal into the `Str` model. -/
def str (s : String) : Str := s.toList

/-- Whitespace characters stripped by `String.prototype.trim` (the forms
relevant to this code base). -/
def isWs (c : Char) : Bool := c == ' ' || c == '\t' || c == '\n' || c == '\r'

/-- ASCII lower-casing of one character, the fragment of
`String.prototype.toLowerCase` exercised by the parser. -/
def lowerChar : Char → Char
  | 'A' => 'a' | 'B' => 'b' | 'C' => 'c' | 'D' => 'd' | 'E' => 'e'
  | 'F' => 'f' | 'G' => 'g' | 'H' => 'h' | 'I' => 'i' | 'J' => 'j'
  | 'K' => 'k' | 'L' => 'l' | 'M' => 'm' | 'N' => 'n' | 'O' => 'o'
  | 'P' => 'p' | 'Q' => 'q' | 'R' => 'r' | 'S' => 's' | 'T' => 't'
  | 'U' => 'u' | 'V' => 'v' | 'W' => 'w' | 'X' => 'x' | 'Y' => 'y'
  | 'Z' => 'z'
  | c => c

/-- `toLowerCase` on the string model. -/
def lowerStr (s : Str) : Str := s.map lowerChar

/-- Left trim: drop leading whitespace. -/
def trimL (s : Str) : Str := s.dropWhile isWs

/-- Right trim: drop trailing whitespace. -/
def trimR (s : Str) : Str := ((s.reverse).dropWhile isWs).reverse

/-- `String.prototype.trim`. -/
def trim (s : Str) : Str := trimL (trimR s)

/-- Decidable prefix test on the string model. -/
def isPre : Str → Str → Bool
  | [], _ => true
  | _ :: _, [] => false
  | a :: as, b :: bs => a == b && isPre as bs

/-- `String.prototype.indexOf`: index of the first occurrence of
`needle` in `hay`, `none` when absent (JS returns `-1`). -/
def idxOf : Str → Str → Option Nat
  | hay, needle =>
    if isPre needle hay then some 0
    else
      match hay with
      | [] => none
      | _ :: t => (idxOf t needle).map (· + 1)

/-- `String.prototype.includes`. -/
def containsStr (hay needle : Str) : Bool := (idxOf hay needle).isSome

-- -------------------- geometry --------------------

/-- A 2D point with exact rational coordinates. -/
structure Point where
  x : ℚ
  y : ℚ
deriving DecidableEq

/-- Source: `const clamp01 = (x) => Math.max(0, Math.min(1, x));`. -/
def clamp01 (x : ℚ) : ℚ := max 0 (min 1 x)

/-- Source: `pointInPolygon` - ray casting with the `1e-9` guard against
vertical-edge division by zero, iterating edges `(poly[j], poly[i])`
with `j` the predecessor of `i` (cyclically). -/
def pointInPolygon (p : Point) (poly : List Point) : Bool :=
  (List.range poly.length).foldl
    (fun inside i =>
      let j := if i = 0 then poly.length - 1 else i - 1
      let pi := poly.getD i ⟨0, 0⟩
      let pj := poly.getD j ⟨0, 0⟩
      let hit := (decide (p.y < pi.y) != decide (p.y < pj.y)) &&
        decide (p.x < (pj.x - pi.x) * (p.y - pi.y) / (pj.y - pi.y + 1 / 1000000000) + pi.x)
      if hit then !inside else inside)
    false

/-- SVG layout constant `size = 420`. -/
def size : ℚ := 420

/-- SVG layout constant `pad = 26`. -/
def pad : ℚ := 26

/-- SVG layout constant `inner = size - pad * 2`. -/
def inner : ℚ := size - pad * 2

/-- Source: `toSvg = (p) => ({ x: pad + p.x * inner, y: pad + (1 - p.y) * inner })`. -/
def toSvg (p : Point) : Point := ⟨pad + p.x * inner, pad + (1 - p.y) * inner⟩

/-- Source: `fromSvg = (p) => ({ x: clamp01((p.x - pad) / inner), y: clamp01(1 - (p.y - pad) / inner) })`. -/
def fromSvg (p : Point) : Point := ⟨clamp01 ((p.x - pad) / inner), clamp01 (1 - (p.y - pad) / inner)⟩

/-- C6: the unit-square-to-canvas mapping `toSvg` and its inverse
`fromSvg` are exact inverses modulo the clamp: for every point with both
components in `[0,1]`, `fromSvg (toSvg p) = p` (exactly, hence within
any floating-point tolerance); `toSvg` flips the Y axis and `fromSvg`
clamps both output components to `[0,1]` by definition. -/
theorem C6_toSvg_fromSvg_roundtrip (p : Point)
    (hx0 : 0 ≤ p.x) (hx1 : p.x ≤ 1) (hy0 : 0 ≤ p.y) (hy1 : p.y ≤ 1) :
    fromSvg (toSvg p) = p := by
  cases p with
  | mk x y =>
    simp only [toSvg, fromSvg, clamp01, pad, inner, size, Point.mk.injEq]
    constructor
    · have h1 : (26 + x * (420 - 26 * 2) - 26) / (420 - 26 * 2) = x := by
        field_simp
      rw [h1, min_eq_right hx1, max_eq_right hx0]
    · have h1 : 1 - (26 + (1 - y) * (420 - 26 * 2) - 26) / (420 - 26 * 2) = y := by
        field_simp
      rw [h1, min_eq_right hy1, max_eq_right hy0]

/-- Witness for C6 at the concrete point (1/3, 2/5). -/
theorem C6_toSvg_fromSvg_roundtrip_witness :
    fromSvg (toSvg ⟨1/3, 2/5⟩) = ⟨1/3, 2/5⟩ :=
  C6_toSvg_fromSvg_roundtrip ⟨1/3, 2/5⟩ (by norm_num) (by norm_num)
    (by norm_num) (by norm_num)

-- -------------------- NLP-lite intake --------------------

/-- Source: `normalizeText` - bullet glyphs become line breaks, carriage
returns are removed, then the result is trimmed. -/
def normalizeText (raw : Str) : Str :=
  trim ((raw.map fun c => if c = '•' ∨ c = '·' then '\n' else c).filter fun c => c != '\r')

/-- Splitting a string model on a single character, as
`String.prototype.split` with a one-character separator. -/
def splitOnChar (c : Char) : Str → List Str
  | [] => [[]]
  | a :: t =>
    let r := splitOnChar c t
    if a = c then [] :: r
    else
      match r with
      | [] => [[a]]
      | h :: t2 => (a :: h) :: t2

/-- Case-insensitive de-duplication keeping the first occurrence, with
`seen` carrying the lower-cased keys already emitted. -/
def dedupeCI : List Str → List Str → List Str
  | _, [] => []
  | seen, p :: t =>
    let k := lowerStr p
    if k ∈ seen then dedupeCI seen t else p :: dedupeCI (k :: seen) t

/-- Source: `splitCandidates` - normalize, split on line breaks then
semicolons then commas, trim each chunk, drop empties, then de-duplicate
case-insensitively preserving first-seen order. -/
def splitCandidates (raw : Str) : List Str :=
  let t := normalizeText raw
  if t.isEmpty then []
  else
    let parts :=
      ((((splitOnChar '\n' t).map (splitOnChar ';')).flatten.map (splitOnChar ',')).flatten.map trim).filter
        fun s => !s.isEmpty
    dedupeCI [] parts

/-- An inferred trade-off axis: display name plus two pole labels. -/
structure Axis where
  name : Str
  left : Str
  right : Str
deriving DecidableEq

/-- Keyword heuristics and generic fallback of `inferAxis` (the part of
the source after the " vs " and "/" separator rules). -/
def inferAxisKeywords (s lower : Str) : Axis :=
  if containsStr lower (str "money") || containsStr lower (str "salary") || containsStr lower (str "pay") then
    ⟨str "Money", str "Lower", str "Higher"⟩
  else if containsStr lower (str "time") || containsStr lower (str "balance") ||
      containsStr lower (str "burnout") || containsStr lower (str "life") then
    ⟨str "Work-life", str "All work", str "All life"⟩
  else if containsStr lower (str "growth") || containsStr lower (str "learning") ||
      containsStr lower (str "skills") then
    ⟨str "Growth", str "Stable", str "Expansive"⟩
  else if containsStr lower (str "meaning") || containsStr lower (str "purpose") ||
      containsStr lower (str "impact") then
    ⟨str "Meaning", str "Instrumental", str "Purposeful"⟩
  else if containsStr lower (str "risk") || containsStr lower (str "security") ||
      containsStr lower (str "stability") then
    ⟨str "Risk", str "Safer", str "Riskier"⟩
  else
    ⟨if s.isEmpty then str "Dimension" else s, str "Lower", str "Higher"⟩

/-- The "/" separator rule of `inferAxis`, falling through to the
keyword table when it does not apply. -/
def inferAxisSlash (s lower : Str) : Axis :=
  match idxOf s (str "/") with
  | some slash =>
    if 0 < slash then
      let a := trim (s.take slash)
      let b := trim (s.drop (slash + 1))
      if a ≠ [] ∧ b ≠ [] then ⟨a ++ str " ↔ " ++ b, a, b⟩ else inferAxisKeywords s lower
    else inferAxisKeywords s lower
  | none => inferAxisKeywords s lower

/-- Source: `inferAxis` - trims the phrase, then applies in order: the
case-insensitive " vs " separator rule, the "/" separator rule, the
keyword table, and the generic fallback. -/
def inferAxis (text : Str) : Axis :=
  let s := trim text
  let lower := lowerStr s
  match idxOf lower (str " vs ") with
  | some vs =>
    if 0 < vs then
      let a := trim (s.take vs)
      let b := trim (s.drop (vs + 4))
      if a ≠ [] ∧ b ≠ [] then ⟨a ++ str " ↔ " ++ b, a, b⟩ else inferAxisSlash s lower
    else inferAxisSlash s lower
  | none => inferAxisSlash s lower

-- -------------------- types + model builder --------------------

/-- Source type `Dim`: identity, display name, pole labels, and the
preference value. -/
structure Dim where
  id : Str
  name : Str
  leftLabel : Str
  rightLabel : Str
  preference : ℚ
deriving DecidableEq

/-- Source type `Opt`: identity, name (empty means unnamed), note text,
and the per-dimension coordinate record keyed by dimension id. -/
structure Opt where
  id : Str
  name : Str
  notes : Str
  scores : List (Str × ℚ)
deriving DecidableEq

/-- Lookup in a JS string-keyed record modelled as an association list
where a later entry shadows an earlier one (object spread semantics). -/
def recGet {β : Type} : List (Str × β) → Str → Option β
  | [], _ => none
  | (k, v) :: t, k2 => (recGet t k2).or (if k = k2 then some v else none)

/-- The dimension records built from the retained candidate phrases, one
`uid()` call per phrase (`ids n` is the n-th generated id). -/
def mkDims (ids : ℕ → Str) : ℕ → List Str → List Dim
  | _, [] => []
  | n, p :: t =>
    let a := inferAxis p
    ⟨ids n, a.name, a.left, a.right, 1/2⟩ :: mkDims ids (n + 1) t

/-- The `while (dims.length < 2)` padding loop of
`buildDimensionsFromConsiderations`, written with explicit fuel; each
iteration grows the list by one, so fuel 2 realises the loop exactly
from any list the builder reaches.  `k` is the index of the next
`uid()` call. -/
def padLoop (ids : ℕ → Str) : ℕ → ℕ → List Dim → List Dim
  | _, 0, dims => dims
  | k, fuel + 1, dims =>
    if dims.length < 2 then
      padLoop ids (k + 1) fuel
        (dims ++ [⟨ids k, str "Dimension " ++ (Nat.repr (dims.length + 1)).toList,
          str "Lower", str "Higher", 1/2⟩])
    else dims

/-- Source: `buildDimensionsFromConsiderations(raw, max = 8)` - split
into candidates, cap at 8, return `null` when no candidate survives,
otherwise build one dimension per candidate and pad to at least two. -/
def buildDimensionsFromConsiderations (ids : ℕ → Str) (raw : Str) : Option (List Dim) :=
  let parts := (splitCandidates raw).take 8
  if parts.isEmpty then none
  else
    let dims := mkDims ids 0 parts
    some (padLoop ids parts.length 2 dims)

/-- The three blank records of `DEFAULT_OPTIONS`, with ids from the
supply. -/
def defaultOptions (ids : ℕ → Str) : List Opt :=
  [⟨ids 0, [], [], []⟩, ⟨ids 1, [], [], []⟩, ⟨ids 2, [], [], []⟩]

/-- Mapping with the element index, as `Array.prototype.map((d, idx) => ...)`. -/
def idxMap {β : Type} (f : ℕ → Dim → β) : ℕ → List Dim → List β
  | _, [] => []
  | n, d :: t => f n d :: idxMap f (n + 1) t

/-- The value stored for the dimension at position `idx` by the
"away from preference" initialisation shared verbatim by `initOptions`
and `addOption`: `idx === 0 ? outside0 : idx === 1 ? outside1 : 0.5`
with `outside0/1 = p0/1 < 0.5 ? 0.9 : 0.1` and
`p0/1 = dims[0/1]?.preference ?? 0.5`. -/
def awayVal (dims : List Dim) (idx : ℕ) : ℚ :=
  let p0 := ((dims[0]?).map Dim.preference).getD (1/2)
  let p1 := ((dims[1]?).map Dim.preference).getD (1/2)
  let outside0 : ℚ := if p0 < 1/2 then 9/10 else 1/10
  let outside1 : ℚ := if p1 < 1/2 then 9/10 else 1/10
  if idx = 0 then outside0 else if idx = 1 then outside1 else 1/2

/-- The "away from preference" starting coordinate record:
`Object.fromEntries(dims.map((d, idx) => [d.id, ...awayVal...]))`. -/
def awayScores (dims : List Dim) : List (Str × ℚ) :=
  idxMap (fun idx d => (d.id, awayVal dims idx)) 0 dims

/-- Source: `initOptions(dims)` - every record of `DEFAULT_OPTIONS` gets
the away-from-preference coordinate record over `dims`. -/
def initOptions (ids : ℕ → Str) (dims : List Dim) : List Opt :=
  (defaultOptions ids).map fun o => { o with scores := awayScores dims }

/-- Source: `addOption` - appends one new unnamed option with the
away-from-preference coordinates (`id` is the fresh `uid()`), and makes
it the selected option.  Returns the new option list and selection. -/
def addOption (id : Str) (dims : List Dim) (options : List Opt) :
    List Opt × Option Str :=
  let o : Opt := ⟨id, [], [], awayScores dims⟩
  (options ++ [o], some o.id)

/-- Source: `removeOption(id)` - filters the option out and, when it was
selected, moves the selection to `next[0]?.id`. -/
def removeOption (options : List Opt) (selectedOptionId : Option Str) (id : Str) :
    List Opt × Option Str :=
  let next := options.filter fun o => o.id ≠ id
  (next, if selectedOptionId = some id then (next[0]?).map Opt.id else selectedOptionId)

-- -------------------- scoring engine --------------------

/-- Derived per-option status.  The source stores
`{ dist, inside, score }`; here `distSq` is the exact square of `dist`
(the root-mean-square is irrational in general) and
`score = (1 - Real.sqrt distSq) * (inside ? 1 : 0.75)` is recovered at
the statement level via the `score` function below. -/
structure Status where
  distSq : ℚ
  inside : Bool
deriving DecidableEq

/-- The body of the `statusById` loop for one option: coordinates and
preferences gathered over all dimensions (missing entries default to
0.5, preferences read back through the `pref` record), squared
root-mean-square distance with the `Math.max(1, n)` guard, and region
membership over the first two coordinates when the polygon has at least
3 vertices. -/
def optionStatus (dims : List Dim) (poly : List Point) (o : Opt) : Status :=
  let pref := dims.map fun d => (d.id, d.preference)
  let coords := dims.map fun d => (recGet o.scores d.id).getD (1/2)
  let prefs := dims.map fun d => (recGet pref d.id).getD (1/2)
  let sum := (List.zipWith (fun c p => (c - p) * (c - p)) coords prefs).sum
  let distSq := sum / ((max 1 coords.length : ℕ) : ℚ)
  let x := coords.getD 0 (1/2)
  let y := coords.getD 1 (1/2)
  let inside := if 3 ≤ poly.length then pointInPolygon ⟨x, y⟩ poly else true
  ⟨distSq, inside⟩

/-- Source: the `statusById` record, built by successive assignments
`out[o.id] = ...` over the option list (a later assignment to the same
id shadows an earlier one, matching `recGet`). -/
def statusById (dims : List Dim) (poly : List Point) (options : List Opt) :
    List (Str × Status) :=
  options.foldl (fun out o => out ++ [(o.id, optionStatus dims poly o)]) []

/-- The composite-score formula `score = (1 - dist) * (inside ? 1 : 0.75)`
of the source, polymorphic so it can be read at `ℚ` or applied to the
real distance `Real.sqrt distSq`. -/
def score {α : Type} [LinearOrderedField α] (dist : α) (inside : Bool) : α :=
  (1 - dist) * (if inside then 1 else 3/4)

-- -------------------- spec-side definitions --------------------

/-- Reads the coordinate of option `o` on dimension `d`, a missing
entry read as 0.5 (shared by the code and the spec wording). -/
def coordOf (o : Opt) (d : Dim) : ℚ := (recGet o.scores d.id).getD (1/2)

/-- Modelled from the spec wording of claim C1: the square of the
root-mean-square of (coordinate - preference) over all dimensions, each
dimension contributing its own preference directly. -/
def specDistSq (dims : List Dim) (o : Opt) : ℚ :=
  ((dims.map fun d => (coordOf o d - d.preference) ^ 2).sum) / (dims.length : ℚ)

/-- Modelled from the spec wording of claim C1: ray casting over the
first two dimensions' coordinates when the polygon has at least 3
vertices, membership always true otherwise. -/
def specInside (dims : List Dim) (poly : List Point) (o : Opt) : Bool :=
  let c0 := ((dims[0]?).map (coordOf o)).getD (1/2)
  let c1 := ((dims[1]?).map (coordOf o)).getD (1/2)
  if 3 ≤ poly.length then pointInPolygon ⟨c0, c1⟩ poly else true

/-- Modelled from the spec wording of claim C5: the starting coordinate
of a fresh option on the i-th dimension - 0.1 when the first (second)
dimension's preference is at least 0.5 and 0.9 otherwise, 0.5 for every
remaining dimension. -/
def specCoord (dims : List Dim) (i : ℕ) : ℚ :=
  let p0 := ((dims[0]?).map Dim.preference).getD (1/2)
  let p1 := ((dims[1]?).map Dim.preference).getD (1/2)
  if i = 0 then (if 1/2 ≤ p0 then 1/10 else 9/10)
  else if i = 1 then (if 1/2 ≤ p1 then 1/10 else 9/10)
  else 1/2

-- -------------------- interaction state machine --------------------

/-- The `dragModeRef` values `"none" | "poly" | "option"`. -/
inductive DragMode where
  | idle
  | polyVertex
  | optionMarker
deriving DecidableEq

/-- The mutable state owned by the map component that the pointer
handlers touch. -/
structure AppState where
  dims : List Dim
  options : List Opt
  poly : List Point
  selectedOptionId : Option Str
  dragPolyIdx : Option ℕ
  dragOptionId : Option Str
  dragMode : DragMode
deriving DecidableEq

/-- Pointer and editing events handled by the map component.
`mouseMove` carries the raw SVG-space position (the handler converts it
with `fromSvg`). -/
inductive Event where
  | mouseDownOption (id : Str)
  | mouseDownPoly (i : ℕ)
  | mouseMove (q : Point)
  | mouseUp
  | mouseLeave
  | setName (id : Str) (nm : Str)

/-- One step of the interaction machine, transcribing the `onMouseDown`
handlers of option markers and polygon handles, the `onMouseMove`,
`onMouseUp` and `onMouseLeave` handlers of the SVG, and the name input's
`onChange`.  Truthiness of the JS strings `dragOptionId` and
`dims[0/1]?.id` is the conjunction of presence and non-emptiness. -/
def step (s : AppState) : Event → AppState
  | .mouseDownOption id =>
    let isNamed :=
      match s.options.find? fun o => o.id == id with
      | some o => !(trim o.name).isEmpty
      | none => false
    let s1 := { s with selectedOptionId := some id }
    if isNamed then { s1 with dragOptionId := some id, dragMode := .optionMarker } else s1
  | .mouseDownPoly i => { s with dragPolyIdx := some i, dragMode := .polyVertex }
  | .mouseMove q =>
    let np := fromSvg q
    match s.dragMode with
    | .polyVertex =>
      match s.dragPolyIdx with
      | some i =>
        { s with poly := ((List.range s.poly.length).zipWith
            (fun j pt => if j = i then np else pt) s.poly) }
      | none => s
    | .optionMarker =>
      match s.dragOptionId with
      | some id =>
        if id ≠ [] then
          match s.dims[0]?, s.dims[1]? with
          | some d0, some d1 =>
            if d0.id ≠ [] ∧ d1.id ≠ [] then
              { s with options := s.options.map fun o =>
                  if o.id = id then
                    { o with scores := o.scores ++ [(d0.id, np.x), (d1.id, np.y)] }
                  else o }
            else s
          | _, _ => s
        else s
      | none => s
    | .idle => s
  | .mouseUp => { s with dragMode := .idle, dragPolyIdx := none, dragOptionId := none }
  | .mouseLeave => { s with dragMode := .idle, dragPolyIdx := none, dragOptionId := none }
  | .setName id nm =>
    { s with options := s.options.map fun o => if o.id = id then { o with name := nm } else o }

/-- Folding a sequence of events through `step`. -/
def steps (s : AppState) (es : List Event) : AppState := es.foldl step s

-- -------------------- record lookup lemmas --------------------

theorem recGet_eq_none {β : Type} (ps : List (Str × β)) (k : Str)
    (h : k ∉ ps.map Prod.fst) : recGet ps k = none := by
  induction ps with
  | nil => rfl
  | cons p t ih =>
    obtain ⟨k0, v0⟩ := p
    simp only [List.map_cons, List.mem_cons, not_or] at h
    simp only [recGet, ih h.2, Option.none_or]
    exact if_neg fun hk => h.1 hk.symm

theorem recGet_of_mem_nodup {β : Type} (ps : List (Str × β)) (k : Str) (v : β)
    (hnd : (ps.map Prod.fst).Nodup) (hm : (k, v) ∈ ps) : recGet ps k = some v := by
  induction ps with
  | nil => simp at hm
  | cons p t ih =>
    obtain ⟨k0, v0⟩ := p
    simp only [List.map_cons, List.nodup_cons] at hnd
    rcases List.mem_cons.mp hm with h | h
    · injection h with h1 h2
      subst h1
      subst h2
      simp [recGet, recGet_eq_none t k hnd.1]
    · simp only [recGet, ih hnd.2 h, Option.or_some]

theorem recGet_mem_values {β : Type} (ps : List (Str × β)) (k : Str) (v : β)
    (h : recGet ps k = some v) : v ∈ ps.map Prod.snd := by
  induction ps with
  | nil => simp [recGet] at h
  | cons p t ih =>
    obtain ⟨k0, v0⟩ := p
    simp only [recGet] at h
    rcases ht : recGet t k with _ | w
    · rw [ht, Option.none_or] at h
      simp only [List.map_cons, List.mem_cons]
      by_cases hk : k0 = k
      · rw [if_pos hk] at h
        exact Or.inl (Option.some.inj h).symm
      · rw [if_neg hk] at h
        exact absurd h (by simp)
    · rw [ht, Option.or_some] at h
      exact List.mem_cons_of_mem _ (ih (ht.trans h))

theorem recGet_append {β : Type} (l1 l2 : List (Str × β)) (k : Str) :
    recGet (l1 ++ l2) k = (recGet l2 k).or (recGet l1 k) := by
  induction l1 with
  | nil => simp [recGet]
  | cons p t ih =>
    obtain ⟨k0, v0⟩ := p
    simp only [List.cons_append, recGet, List.append_eq, ih, Option.or_assoc]

theorem foldl_append_singleton {α β : Type} (f : α → β) :
    ∀ (l : List α) (acc : List β),
      l.foldl (fun out o => out ++ [f o]) acc = acc ++ l.map f := by
  intro l
  induction l with
  | nil => simp
  | cons a t ih => intro acc; simp [List.foldl_cons, ih]

theorem statusById_eq_map (dims : List Dim) (poly : List Point) (opts : List Opt) :
    statusById dims poly opts = opts.map fun o => (o.id, optionStatus dims poly o) := by
  simpa using foldl_append_singleton (fun o => (o.id, optionStatus dims poly o)) opts []

-- -------------------- C9 --------------------

/-- Validity of a selection relative to an option list: the selected id,
when present, belongs to an existing option. -/
def selValid (options : List Opt) (sel : Option Str) : Prop :=
  ∀ s, sel = some s → ∃ o ∈ options, o.id = s

/-- C9: `removeOption` preserves selection validity - after removing any
option from a state whose selection is valid, the selected id refers to
an option that still exists (or is none, necessarily so when the list
becomes empty); removing the currently selected option when other
options remain reassigns selection to some other existing id, never the
removed one. -/
theorem C9_removeOption_selection (options : List Opt) (sel : Option Str) (id : Str)
    (hvalid : selValid options sel) :
    selValid (removeOption options sel id).1 (removeOption options sel id).2 ∧
    ((removeOption options sel id).1 = [] → (removeOption options sel id).2 = none) ∧
    (sel = some id → (removeOption options sel id).1 ≠ [] →
      (removeOption options sel id).2 ≠ none ∧ (removeOption options sel id).2 ≠ some id) := by
  have h1 : (removeOption options sel id).1 = options.filter (fun o => o.id ≠ id) := rfl
  have h2 : (removeOption options sel id).2 =
      if sel = some id then ((options.filter (fun o => o.id ≠ id))[0]?).map Opt.id
      else sel := rfl
  rw [h1, h2]
  have hmem : ∀ o, o ∈ options.filter (fun o => o.id ≠ id) ↔ o ∈ options ∧ o.id ≠ id := by
    intro o
    simp [List.mem_filter]
  refine ⟨?_, ?_, ?_⟩
  · intro s hs
    by_cases hsel : sel = some id
    · rw [if_pos hsel] at hs
      rcases h0 : (options.filter (fun o => o.id ≠ id))[0]? with _ | o
      · rw [h0] at hs
        simp at hs
      · rw [h0] at hs
        simp only [Option.map_some'] at hs
        exact ⟨o, List.getElem?_mem h0, Option.some.inj hs⟩
    · rw [if_neg hsel] at hs
      obtain ⟨o, hom, hos⟩ := hvalid s hs
      refine ⟨o, (hmem o).mpr ⟨hom, ?_⟩, hos⟩
      intro hoid
      exact hsel (by rw [hs, ← hos, hoid])
  · intro hempty
    by_cases hsel : sel = some id
    · rw [if_pos hsel, hempty]
      simp
    · rw [if_neg hsel]
      rcases hsv : sel with _ | s
      · rfl
      · obtain ⟨o, hom, hos⟩ := hvalid s hsv
        have hin : o ∈ options.filter (fun o => o.id ≠ id) :=
          (hmem o).mpr ⟨hom, fun hoid => hsel (by rw [hsv, ← hos, hoid])⟩
        rw [hempty] at hin
        simp at hin
  · intro hsel hne
    rw [if_pos hsel]
    rcases hn : options.filter (fun o => o.id ≠ id) with _ | ⟨o, t⟩
    · exact absurd hn hne
    · have hoid : o.id ≠ id := ((hmem o).mp (hn ▸ List.mem_cons_self o t)).2
      rw [hn]
      exact ⟨by simp, by simpa using hoid⟩

/-- Witness for C9: removing the selected option "o1" from a two-option
list keeps the selection valid and moves it to the other id. -/
theorem C9_removeOption_selection_witness :
    selValid (removeOption [⟨str "o1", [], [], []⟩, ⟨str "o2", [], [], []⟩]
        (some (str "o1")) (str "o1")).1
      (removeOption [⟨str "o1", [], [], []⟩, ⟨str "o2", [], [], []⟩]
        (some (str "o1")) (str "o1")).2 ∧
    (removeOption [⟨str "o1", [], [], []⟩, ⟨str "o2", [], [], []⟩]
        (some (str "o1")) (str "o1")).2 ≠ some (str "o1") := by
  have h := C9_removeOption_selection
    [⟨str "o1", [], [], []⟩, ⟨str "o2", [], [], []⟩] (some (str "o1")) (str "o1")
    (by intro s hs
        exact ⟨⟨str "o1", [], [], []⟩, by simp, ((Option.some.inj hs)).symm ▸ rfl⟩)
  exact ⟨h.1, (h.2.2 rfl (by decide)).2⟩

-- -------------------- bounds lemmas for the scoring engine --------------------

theorem sum_bounds_of_unit (l : List ℚ) (h : ∀ x ∈ l, 0 ≤ x ∧ x ≤ 1) :
    0 ≤ l.sum ∧ l.sum ≤ (l.length : ℚ) := by
  induction l with
  | nil => simp
  | cons a t ih =>
    have ha := h a (List.mem_cons_self a t)
    have ht := ih fun x hx => h x (List.mem_cons_of_mem a hx)
    refine ⟨?_, ?_⟩
    · simp only [List.sum_cons]
      exact add_nonneg ha.1 ht.1
    · simp only [List.sum_cons, List.length_cons]
      push_cast
      linarith [ht.2, ha.2]

theorem zipWith_sq_bounds :
    ∀ (cs ps : List ℚ), (∀ c ∈ cs, 0 ≤ c ∧ c ≤ 1) → (∀ p ∈ ps, 0 ≤ p ∧ p ≤ 1) →
      ∀ x ∈ List.zipWith (fun c p => (c - p) * (c - p)) cs ps, 0 ≤ x ∧ x ≤ 1 := by
  intro cs
  induction cs with
  | nil => intro ps _ _ x hx; simp at hx
  | cons c ct ih =>
    intro ps hc hp x hx
    cases ps with
    | nil => simp at hx
    | cons p pt =>
      simp only [List.zipWith_cons_cons, List.mem_cons] at hx
      rcases hx with hx | hx
      · subst hx
        have h1 := hc c (List.mem_cons_self c ct)
        have h2 := hp p (List.mem_cons_self p pt)
        exact ⟨mul_self_nonneg _, by nlinarith [h1.1, h1.2, h2.1, h2.2]⟩
      · exact ih pt (fun z hz => hc z (List.mem_cons_of_mem c hz))
          (fun z hz => hp z (List.mem_cons_of_mem p hz)) x hx

theorem coords_bounds (dims : List Dim) (o : Opt)
    (hs : ∀ kv ∈ o.scores, 0 ≤ kv.2 ∧ kv.2 ≤ 1) :
    ∀ c ∈ dims.map fun d => (recGet o.scores d.id).getD (1/2), 0 ≤ c ∧ c ≤ 1 := by
  intro c hc
  obtain ⟨d, _, hcd⟩ := List.mem_map.mp hc
  subst hcd
  rcases hr : recGet o.scores d.id with _ | v
  · norm_num
  · obtain ⟨kv, hkv, hveq⟩ := List.mem_map.mp (recGet_mem_values _ _ _ hr)
    have hb := hs kv hkv
    rw [hveq] at hb
    simpa using hb

theorem prefs_bounds (dims : List Dim)
    (hp : ∀ d ∈ dims, 0 ≤ d.preference ∧ d.preference ≤ 1) :
    ∀ c ∈ dims.map fun d =>
      (recGet (dims.map fun x => (x.id, x.preference)) d.id).getD (1/2), 0 ≤ c ∧ c ≤ 1 := by
  intro c hc
  obtain ⟨d, _, hcd⟩ := List.mem_map.mp hc
  subst hcd
  rcases hr : recGet (dims.map fun x => (x.id, x.preference)) d.id with _ | v
  · rw [hr]
    norm_num
  · have hv := recGet_mem_values _ _ _ hr
    rw [List.map_map] at hv
    obtain ⟨d2, hd2, hveq⟩ := List.mem_map.mp hv
    have hb := hp d2 hd2
    simp only [Function.comp] at hveq
    rw [hveq] at hb
    rw [hr]
    simpa using hb

-- -------------------- C10 --------------------

/-- C10: for dimensions whose preferences lie in `[0,1]` and an option
whose stored coordinates lie in `[0,1]`, and any polygon, the derived
status has squared distance in `[0,1]`, hence distance
`Real.sqrt distSq` in `[0,1]`, and composite score in `[0,1]`. -/
theorem C10_status_bounds (dims : List Dim) (poly : List Point) (o : Opt)
    (hp : ∀ d ∈ dims, 0 ≤ d.preference ∧ d.preference ≤ 1)
    (hs : ∀ kv ∈ o.scores, 0 ≤ kv.2 ∧ kv.2 ≤ 1) :
    0 ≤ (optionStatus dims poly o).distSq ∧ (optionStatus dims poly o).distSq ≤ 1 ∧
    0 ≤ Real.sqrt ((optionStatus dims poly o).distSq : ℝ) ∧
    Real.sqrt ((optionStatus dims poly o).distSq : ℝ) ≤ 1 ∧
    0 ≤ score (Real.sqrt ((optionStatus dims poly o).distSq : ℝ))
      (optionStatus dims poly o).inside ∧
    score (Real.sqrt ((optionStatus dims poly o).distSq : ℝ))
      (optionStatus dims poly o).inside ≤ 1 := by
  have hz := zipWith_sq_bounds _ _ (coords_bounds dims o hs) (prefs_bounds dims hp)
  have hsum := sum_bounds_of_unit _ hz
  have hlen : (List.zipWith (fun c p => (c - p) * (c - p))
      (dims.map fun d => (recGet o.scores d.id).getD (1/2))
      (dims.map fun d =>
        (recGet (dims.map fun x => (x.id, x.preference)) d.id).getD (1/2))).length =
      dims.length := by
    rw [List.length_zipWith, List.length_map, List.length_map, min_self]
  have hN1 : (1 : ℚ) ≤ ((max 1 (dims.map fun d =>
      (recGet o.scores d.id).getD (1/2)).length : ℕ) : ℚ) := by
    exact_mod_cast le_max_left 1 _
  have hN0 : (0 : ℚ) < ((max 1 (dims.map fun d =>
      (recGet o.scores d.id).getD (1/2)).length : ℕ) : ℚ) :=
    lt_of_lt_of_le zero_lt_one hN1
  have hSN : (List.zipWith (fun c p => (c - p) * (c - p))
      (dims.map fun d => (recGet o.scores d.id).getD (1/2))
      (dims.map fun d =>
        (recGet (dims.map fun x => (x.id, x.preference)) d.id).getD (1/2))).sum ≤
      ((max 1 (dims.map fun d => (recGet o.scores d.id).getD (1/2)).length : ℕ) : ℚ) := by
    refine le_trans (hlen ▸ hsum.2) ?_
    have : dims.length ≤ max 1 (dims.map fun d =>
        (recGet o.scores d.id).getD (1/2)).length := by
      rw [List.length_map]
      exact le_max_right 1 _
    exact_mod_cast this
  have hd0 : 0 ≤ (optionStatus dims poly o).distSq := div_nonneg hsum.1 (le_of_lt hN0)
  have hd1 : (optionStatus dims poly o).distSq ≤ 1 := (div_le_one hN0).mpr hSN
  have hr0 : (0 : ℝ) ≤ ((optionStatus dims poly o).distSq : ℝ) := by exact_mod_cast hd0
  have hr1 : ((optionStatus dims poly o).distSq : ℝ) ≤ 1 := by exact_mod_cast hd1
  have hs0 : 0 ≤ Real.sqrt ((optionStatus dims poly o).distSq : ℝ) := Real.sqrt_nonneg _
  have hs1 : Real.sqrt ((optionStatus dims poly o).distSq : ℝ) ≤ 1 :=
    Real.sqrt_le_one.mpr hr1
  refine ⟨hd0, hd1, hs0, hs1, ?_, ?_⟩
  · cases hI : (optionStatus dims poly o).inside <;> (simp [score]; try nlinarith)
  · cases hI : (optionStatus dims poly o).inside <;> (simp [score]; try nlinarith)

/-- Witness for C10 at one dimension with preference 1/2 and one stored
coordinate 1/2. -/
theorem C10_status_bounds_witness :
    0 ≤ (optionStatus [⟨str "a", str "D", str "L", str "R", 1/2⟩] []
      ⟨str "o", [], [], [(str "a", 1/2)]⟩).distSq ∧
    score (Real.sqrt (((optionStatus [⟨str "a", str "D", str "L", str "R", 1/2⟩] []
      ⟨str "o", [], [], [(str "a", 1/2)]⟩).distSq : ℚ) : ℝ))
      (optionStatus [⟨str "a", str "D", str "L", str "R", 1/2⟩] []
        ⟨str "o", [], [], [(str "a", 1/2)]⟩).inside ≤ 1 := by
  have h := C10_status_bounds [⟨str "a", str "D", str "L", str "R", 1/2⟩] []
    ⟨str "o", [], [], [(str "a", 1/2)]⟩
    (by rintro d hd
        simp only [List.mem_singleton] at hd
        subst hd
        norm_num)
    (by rintro kv hkv
        simp only [List.mem_singleton] at hkv
        subst hkv
        norm_num)
  exact ⟨h.1, h.2.2.2.2.2⟩

-- -------------------- C2 --------------------

/-- Counterexample for C2 as stated: a valid configuration (one
dimension with preference 1, stored coordinate 0) reaches squared
distance exactly 1, i.e. distance 1, and there toggling region
membership from outside to inside does not strictly increase the
composite score (both scores are 0). -/
theorem C2_strict_increase_counterexample :
    (optionStatus [⟨str "a", str "D", str "L", str "R", 1⟩] []
      ⟨str "o", [], [], [(str "a", 0)]⟩).distSq = 1 ∧
    ¬ score (Real.sqrt (((optionStatus [⟨str "a", str "D", str "L", str "R", 1⟩] []
        ⟨str "o", [], [], [(str "a", 0)]⟩).distSq : ℚ) : ℝ)) false <
      score (Real.sqrt (((optionStatus [⟨str "a", str "D", str "L", str "R", 1⟩] []
        ⟨str "o", [], [], [(str "a", 0)]⟩).distSq : ℚ) : ℝ)) true := by
  have h : (optionStatus [⟨str "a", str "D", str "L", str "R", 1⟩] []
      ⟨str "o", [], [], [(str "a", 0)]⟩).distSq = 1 := by
    norm_num [optionStatus, recGet, str]
  refine ⟨h, ?_⟩
  rw [h]
  norm_num [score, Real.sqrt_one]

/-- C2 (amended): with the composite-score formula
`score dist inside = (1 - dist) * (inside ? 1 : 0.75)`, decreasing the
distance never decreases the score (in particular along the actual
distances `Real.sqrt distSq`, which are monotone in the squared
distance); for any fixed distance the inside/outside difference is
exactly `0.25 * (1 - distance)`, and the increase is strict precisely
when the distance is below 1 (at distance 1 both scores vanish). -/
theorem C2_score_monotone_amended :
    (∀ (d1 d2 : ℝ) (b : Bool), d1 ≤ d2 → score d2 b ≤ score d1 b) ∧
    (∀ (q1 q2 : ℚ) (b : Bool), q1 ≤ q2 →
      score (Real.sqrt (q2 : ℝ)) b ≤ score (Real.sqrt (q1 : ℝ)) b) ∧
    (∀ d : ℝ, score d true - score d false = (1 - d) / 4) ∧
    (∀ d : ℝ, d < 1 → score d false < score d true) := by
  have hmono : ∀ (d1 d2 : ℝ) (b : Bool), d1 ≤ d2 → score d2 b ≤ score d1 b := by
    intro d1 d2 b h
    cases b <;> simp [score] <;> nlinarith
  refine ⟨hmono, ?_, ?_, ?_⟩
  · intro q1 q2 b h
    exact hmono _ _ b (Real.sqrt_le_sqrt (by exact_mod_cast h))
  · intro d
    simp [score]
    ring
  · intro d h
    simp [score]
    nlinarith

/-- Witness for C2 (amended) at concrete distances. -/
theorem C2_score_monotone_amended_witness :
    score (2 : ℝ) true ≤ score (1 : ℝ) true ∧
    score (Real.sqrt ((1 : ℚ) : ℝ)) false ≤ score (Real.sqrt ((0 : ℚ) : ℝ)) false ∧
    score (0 : ℝ) true - score (0 : ℝ) false = (1 - 0) / 4 ∧
    score (0 : ℝ) false < score (0 : ℝ) true :=
  ⟨C2_score_monotone_amended.1 1 2 true (by norm_num),
   C2_score_monotone_amended.2.1 0 1 false (by norm_num),
   C2_score_monotone_amended.2.2.1 0,
   C2_score_monotone_amended.2.2.2 0 (by norm_num)⟩

-- -------------------- C3 --------------------

/-- The id-free part of a dimension record. -/
def stripId (d : Dim) : Str × Str × Str × ℚ := (d.name, d.leftLabel, d.rightLabel, d.preference)

/-- Unfolding lemma for one iteration of the padding loop. -/
theorem padLoop_succ (ids : ℕ → Str) (k fuel : ℕ) (l : List Dim) :
    padLoop ids k (fuel + 1) l =
      if l.length < 2 then
        padLoop ids (k + 1) fuel
          (l ++ [⟨ids k, str "Dimension " ++ (Nat.repr (l.length + 1)).toList,
            str "Lower", str "Higher", 1/2⟩])
      else l := rfl

theorem mkDims_strip (ids1 ids2 : ℕ → Str) :
    ∀ (parts : List Str) (n1 n2 : ℕ),
      (mkDims ids1 n1 parts).map stripId = (mkDims ids2 n2 parts).map stripId := by
  intro parts
  induction parts with
  | nil => intro n1 n2; rfl
  | cons p t ih =>
    intro n1 n2
    simp only [mkDims, List.map_cons, stripId]
    exact congrArg _ (ih (n1 + 1) (n2 + 1))

theorem padLoop_strip (ids1 ids2 : ℕ → Str) :
    ∀ (fuel k1 k2 : ℕ) (l1 l2 : List Dim), l1.map stripId = l2.map stripId →
      (padLoop ids1 k1 fuel l1).map stripId = (padLoop ids2 k2 fuel l2).map stripId := by
  intro fuel
  induction fuel with
  | zero => intro k1 k2 l1 l2 h; exact h
  | succ f ih =>
    intro k1 k2 l1 l2 h
    have hlen : l1.length = l2.length := by
      have h2 := congrArg List.length h
      simpa using h2
    rw [padLoop_succ, padLoop_succ]
    by_cases h2 : l1.length < 2
    · rw [if_pos h2, if_pos (hlen ▸ h2)]
      refine ih _ _ _ _ ?_
      simp only [List.map_append, List.map_cons, List.map_nil, stripId, h, hlen]
    · rw [if_neg h2, if_neg (hlen ▸ h2)]
      exact h

/-- Counterexample for C3 as stated: `buildDimensionsFromConsiderations`
reads the fresh-id generator (`uid()`, i.e. `Math.random`), so two calls
on the same raw text with different generator states return different
dimension sequences - the ids differ. -/
theorem C3_build_not_input_determined :
    buildDimensionsFromConsiderations (fun _ => str "a") (str "money") ≠
      buildDimensionsFromConsiderations (fun _ => str "b") (str "money") := by
  intro h
  exact absurd (congrArg (Option.map (List.map Dim.id)) h) (by decide)

/-- C3 (amended): every field of the built dimensions except the freshly
generated id is determined by the raw text alone (the result is
independent of the id supply after erasing ids), and the scoring engine
is a pure function of dimensions, polygon and the option's coordinate
record (it reads nothing else from the option). -/
theorem C3_core_determinism_amended :
    (∀ (ids1 ids2 : ℕ → Str) (raw : Str),
      (buildDimensionsFromConsiderations ids1 raw).map (List.map stripId) =
        (buildDimensionsFromConsiderations ids2 raw).map (List.map stripId)) ∧
    (∀ (dims : List Dim) (poly : List Point) (o1 o2 : Opt),
      o1.scores = o2.scores → optionStatus dims poly o1 = optionStatus dims poly o2) := by
  constructor
  · intro ids1 ids2 raw
    simp only [buildDimensionsFromConsiderations]
    by_cases hp : ((splitCandidates raw).take 8).isEmpty
    · rw [if_pos hp, if_pos hp]
    · rw [if_neg hp, if_neg hp]
      simp only [Option.map_some']
      exact congrArg some
        (padLoop_strip ids1 ids2 2 _ _ _ _ (mkDims_strip ids1 ids2 _ 0 0))
  · intro dims poly o1 o2 h
    simp only [optionStatus, h]

/-- Unfolding lemmas for the padding loop at concrete fuel. -/
theorem padLoop_zero (ids : ℕ → Str) (k : ℕ) (l : List Dim) : padLoop ids k 0 l = l := rfl

theorem padLoop_one (ids : ℕ → Str) (k : ℕ) (l : List Dim) :
    padLoop ids k 1 l =
      if l.length < 2 then
        padLoop ids (k + 1) 0
          (l ++ [⟨ids k, str "Dimension " ++ (Nat.repr (l.length + 1)).toList,
            str "Lower", str "Higher", 1/2⟩])
      else l := rfl

theorem padLoop_two (ids : ℕ → Str) (k : ℕ) (l : List Dim) :
    padLoop ids k 2 l =
      if l.length < 2 then
        padLoop ids (k + 1) 1
          (l ++ [⟨ids k, str "Dimension " ++ (Nat.repr (l.length + 1)).toList,
            str "Lower", str "Higher", 1/2⟩])
      else l := rfl

theorem mkDims_length (ids : ℕ → Str) : ∀ (n : ℕ) (parts : List Str),
    (mkDims ids n parts).length = parts.length := by
  intro n parts
  induction parts generalizing n with
  | nil => rfl
  | cons p t ih => simp [mkDims, ih]

-- -------------------- C4 --------------------

/-- Counterexample for C4 as stated: on empty input (zero candidates)
`buildDimensionsFromConsiderations` returns `null` rather than a padded
two-dimension sequence, so no dimension sequence of length at least 2 is
returned. -/
theorem C4_empty_input_counterexample :
    buildDimensionsFromConsiderations (fun _ => str "a") [] = none ∧
    ¬ ∃ dims, buildDimensionsFromConsiderations (fun _ => str "a") [] = some dims ∧
        2 ≤ dims.length := by
  have h : buildDimensionsFromConsiderations (fun _ => str "a") [] = none := by decide
  refine ⟨h, ?_⟩
  rintro ⟨dims, hd, _⟩
  rw [h] at hd
  exact Option.noConfusion hd

/-- C4 (amended): whenever `buildDimensionsFromConsiderations` does
return a sequence (i.e. at least one candidate was parsed), the sequence
has length at least 2, and when exactly one axis resulted the second
entry is the generically-named padding dimension "Dimension 2" with
default preference 0.5.  (With zero candidates the function returns
`null` and the caller falls back to the built-in defaults.) -/
theorem C4_padding_amended (ids : ℕ → Str) (raw : Str) (dims : List Dim)
    (h : buildDimensionsFromConsiderations ids raw = some dims) :
    2 ≤ dims.length ∧
    (((splitCandidates raw).take 8).length = 1 →
      dims.length = 2 ∧
      (dims[1]?).map (fun d => (d.name, d.preference)) =
        some (str "Dimension 2", (1/2 : ℚ))) := by
  simp only [buildDimensionsFromConsiderations] at h
  by_cases hp : ((splitCandidates raw).take 8).isEmpty
  · rw [if_pos hp] at h
    exact absurd h (by simp)
  · rw [if_neg hp] at h
    have hd := Option.some.inj h
    have hb := mkDims_length ids 0 ((splitCandidates raw).take 8)
    have hlen1 : 1 ≤ ((splitCandidates raw).take 8).length := by
      rcases hq : (splitCandidates raw).take 8 with _ | ⟨p, t⟩
      · rw [hq] at hp
        simp at hp
      · simp
    by_cases hone : ((splitCandidates raw).take 8).length = 1
    · rcases hbase : mkDims ids 0 ((splitCandidates raw).take 8) with _ | ⟨d0, rest⟩
      · rw [hbase] at hb
        simp only [List.length_nil] at hb
        omega
      · have hrest : rest = [] := by
          rw [hbase] at hb
          simp only [List.length_cons] at hb
          rw [hone] at hb
          exact List.length_eq_zero.mp (by omega)
        subst hrest
        rw [hbase, padLoop_two] at hd
        simp only [List.length_cons, List.length_nil] at hd
        rw [if_pos (by omega)] at hd
        rw [padLoop_one] at hd
        simp only [List.length_append, List.length_cons, List.length_nil] at hd
        rw [if_neg (by omega)] at hd
        rw [← hd]
        refine ⟨by simp, fun _ => ⟨by simp, ?_⟩⟩
        simp only [List.cons_append, List.nil_append]
        simp
        decide
    · have h2 : 2 ≤ (mkDims ids 0 ((splitCandidates raw).take 8)).length := by
        rw [hb]
        omega
      rw [padLoop_two, if_neg (by omega)] at hd
      rw [← hd]
      exact ⟨h2, fun h1 => absurd h1 hone⟩

/-- Witness for C4 (amended) on the single-axis input "money". -/
theorem C4_padding_amended_witness :
    2 ≤ ([⟨str "i", str "Money", str "Lower", str "Higher", 1/2⟩,
          ⟨str "i", str "Dimension 2", str "Lower", str "Higher", 1/2⟩] : List Dim).length ∧
    (([⟨str "i", str "Money", str "Lower", str "Higher", 1/2⟩,
       ⟨str "i", str "Dimension 2", str "Lower", str "Higher", 1/2⟩] : List Dim)[1]?).map
        (fun d => (d.name, d.preference)) = some (str "Dimension 2", (1/2 : ℚ)) := by
  have h := C4_padding_amended (fun _ => str "i") (str "money")
    [⟨str "i", str "Money", str "Lower", str "Higher", 1/2⟩,
     ⟨str "i", str "Dimension 2", str "Lower", str "Higher", 1/2⟩]
    (by rfl)
  exact ⟨h.1, (h.2 (by decide)).2⟩

/-- Witness for C3 (amended): id-stripped build results agree across two
id supplies, and the status of two options with equal coordinates but
different names and ids agrees. -/
theorem C3_core_determinism_amended_witness :
    (buildDimensionsFromConsiderations (fun _ => str "a") (str "money")).map
        (List.map stripId) =
      (buildDimensionsFromConsiderations (fun _ => str "b") (str "money")).map
        (List.map stripId) ∧
    optionStatus [] [] ⟨str "o1", str "A", [], [(str "k", 1)]⟩ =
      optionStatus [] [] ⟨str "o2", str "B", [], [(str "k", 1)]⟩ :=
  ⟨C3_core_determinism_amended.1 _ _ _,
   C3_core_determinism_amended.2 [] [] _ _ rfl⟩

-- -------------------- C5 --------------------

theorem idxMap_keys {β : Type} (g : ℕ → Dim → β) :
    ∀ (n : ℕ) (dims : List Dim),
      (idxMap (fun m x => (x.id, g m x)) n dims).map Prod.fst = dims.map Dim.id := by
  intro n dims
  induction dims generalizing n with
  | nil => rfl
  | cons d t ih => simp [idxMap, ih]

theorem recGet_idxMap {β : Type} (g : ℕ → Dim → β) :
    ∀ (dims : List Dim) (n i : ℕ) (d : Dim),
      (dims.map Dim.id).Nodup → dims[i]? = some d →
      recGet (idxMap (fun m x => (x.id, g m x)) n dims) d.id = some (g (n + i) d) := by
  intro dims
  induction dims with
  | nil =>
    intro n i d _ hi
    simp at hi
  | cons d0 t ih =>
    intro n i d hnd hi
    simp only [List.map_cons, List.nodup_cons] at hnd
    cases i with
    | zero =>
      simp only [List.getElem?_cons_zero] at hi
      have hd : d0 = d := Option.some.inj hi
      subst hd
      have hnone : recGet (idxMap (fun m x => (x.id, g m x)) (n + 1) t) d0.id = none := by
        apply recGet_eq_none
        rw [idxMap_keys]
        exact hnd.1
      simp [idxMap, recGet, hnone]
    | succ j =>
      simp only [List.getElem?_cons_succ] at hi
      have hrec := ih (n + 1) j d hnd.2 hi
      have harith : n + 1 + j = n + (j + 1) := by omega
      rw [harith] at hrec
      simp [idxMap, recGet, hrec]

theorem awayVal_eq_specCoord (dims : List Dim) (i : ℕ) :
    awayVal dims i = specCoord dims i := by
  simp only [awayVal, specCoord]
  rcases eq_or_ne i 0 with hi0 | hi0
  · rw [if_pos hi0, if_pos hi0]
    rcases lt_or_le (((dims[0]?).map Dim.preference).getD (1/2)) (1/2) with h | h
    · rw [if_pos h, if_neg (not_le.mpr h)]
    · rw [if_neg (not_lt.mpr h), if_pos h]
  · rw [if_neg hi0, if_neg hi0]
    rcases eq_or_ne i 1 with hi1 | hi1
    · rw [if_pos hi1, if_pos hi1]
      rcases lt_or_le (((dims[1]?).map Dim.preference).getD (1/2)) (1/2) with h | h
      · rw [if_pos h, if_neg (not_le.mpr h)]
      · rw [if_neg (not_lt.mpr h), if_pos h]
    · rw [if_neg hi1, if_neg hi1]

/-- C5: for a dimension sequence with distinct ids, the coordinate
record created by `initOptions` (every generated option carries it) and
by `addOption` (the appended option carries it) covers every dimension,
assigning the i-th dimension the spec's "away from preference" value:
0.1 when the first (second) dimension's preference is at least 0.5 and
0.9 otherwise, and 0.5 for every later dimension. -/
theorem C5_initial_coordinates (ids : ℕ → Str) (dims : List Dim)
    (hnd : (dims.map Dim.id).Nodup) (i : ℕ) (d : Dim) (hi : dims[i]? = some d) :
    recGet (awayScores dims) d.id = some (specCoord dims i) ∧
    (∀ o ∈ initOptions ids dims, o.scores = awayScores dims) ∧
    (∀ (idO : Str) (options : List Opt),
      (addOption idO dims options).1 = options ++ [⟨idO, [], [], awayScores dims⟩] ∧
      (addOption idO dims options).2 = some idO) := by
  refine ⟨?_, ?_, ?_⟩
  · have h := recGet_idxMap (fun m _ => awayVal dims m) dims 0 i d hnd hi
    simp only [Nat.zero_add] at h
    rw [awayVal_eq_specCoord] at h
    exact h
  · intro o ho
    simp only [initOptions, List.mem_map] at ho
    obtain ⟨o0, _, rfl⟩ := ho
    rfl
  · intro idO options
    exact ⟨rfl, rfl⟩

/-- Witness for C5 on the spec's example: preferences 0.8 and 0.2 give
first coordinate 0.1 and second coordinate 0.9. -/
theorem C5_initial_coordinates_witness :
    recGet (awayScores [⟨str "a", str "A", str "L", str "R", 4/5⟩,
        ⟨str "b", str "B", str "L", str "R", 1/5⟩]) (str "a") =
      some (specCoord [⟨str "a", str "A", str "L", str "R", 4/5⟩,
        ⟨str "b", str "B", str "L", str "R", 1/5⟩] 0) ∧
    recGet (awayScores [⟨str "a", str "A", str "L", str "R", 4/5⟩,
        ⟨str "b", str "B", str "L", str "R", 1/5⟩]) (str "b") =
      some (specCoord [⟨str "a", str "A", str "L", str "R", 4/5⟩,
        ⟨str "b", str "B", str "L", str "R", 1/5⟩] 1) ∧
    specCoord [⟨str "a", str "A", str "L", str "R", 4/5⟩,
      ⟨str "b", str "B", str "L", str "R", 1/5⟩] 0 = 1/10 ∧
    specCoord [⟨str "a", str "A", str "L", str "R", 4/5⟩,
      ⟨str "b", str "B", str "L", str "R", 1/5⟩] 1 = 9/10 := by
  refine ⟨?_, ?_, ?_, ?_⟩
  · exact (C5_initial_coordinates (fun _ => str "i")
      [⟨str "a", str "A", str "L", str "R", 4/5⟩, ⟨str "b", str "B", str "L", str "R", 1/5⟩]
      (by decide) 0 ⟨str "a", str "A", str "L", str "R", 4/5⟩ rfl).1
  · exact (C5_initial_coordinates (fun _ => str "i")
      [⟨str "a", str "A", str "L", str "R", 4/5⟩, ⟨str "b", str "B", str "L", str "R", 1/5⟩]
      (by decide) 1 ⟨str "b", str "B", str "L", str "R", 1/5⟩ rfl).1
  · norm_num [specCoord]
  · norm_num [specCoord]

-- -------------------- C1 --------------------

theorem optionStatus_inside_spec (dims : List Dim) (poly : List Point) (o : Opt) :
    (optionStatus dims poly o).inside = specInside dims poly o := by
  simp only [optionStatus, specInside, coordOf]
  have h0 : (dims.map fun d => (recGet o.scores d.id).getD (1/2)).getD 0 (1/2) =
      ((dims[0]?).map fun d => (recGet o.scores d.id).getD (1/2)).getD (1/2) := by
    rw [List.getD_eq_getElem?_getD, List.getElem?_map]
  have h1 : (dims.map fun d => (recGet o.scores d.id).getD (1/2)).getD 1 (1/2) =
      ((dims[1]?).map fun d => (recGet o.scores d.id).getD (1/2)).getD (1/2) := by
    rw [List.getD_eq_getElem?_getD, List.getElem?_map]
  rw [h0, h1]
  rfl

theorem optionStatus_distSq_spec (dims : List Dim) (poly : List Point) (o : Opt)
    (hd : (dims.map Dim.id).Nodup) :
    (optionStatus dims poly o).distSq = specDistSq dims o := by
  have hpref : ∀ x ∈ dims,
      (recGet (dims.map fun y => (y.id, y.preference)) x.id).getD (1/2) = x.preference := by
    intro x hx
    have hk : ((dims.map fun y => (y.id, y.preference)).map Prod.fst).Nodup := by
      rw [List.map_map]
      have hcomp : (Prod.fst ∘ fun y : Dim => (y.id, y.preference)) = Dim.id := rfl
      rw [hcomp]
      exact hd
    rw [recGet_of_mem_nodup _ _ _ hk (List.mem_map.mpr ⟨x, hx, rfl⟩)]
    rfl
  simp only [optionStatus, specDistSq, coordOf]
  have hprefs : (dims.map fun x =>
      (recGet (dims.map fun y => (y.id, y.preference)) x.id).getD (1/2)) =
      dims.map Dim.preference := List.map_congr_left hpref
  rw [hprefs]
  rw [List.zipWith_map (fun c p => (c - p) * (c - p))
    (fun d => (recGet o.scores d.id).getD (1/2)) Dim.preference dims dims]
  rw [List.zipWith_same]
  have hsq : (dims.map fun a =>
      ((recGet o.scores a.id).getD (1/2) - a.preference) *
        ((recGet o.scores a.id).getD (1/2) - a.preference)) =
      dims.map fun d => ((recGet o.scores d.id).getD (1/2) - d.preference) ^ 2 :=
    List.map_congr_left fun a _ => by ring
  rw [hsq, List.length_map]
  rcases dims with _ | ⟨d0, dt⟩
  · simp
  · have hmax : max 1 (d0 :: dt).length = (d0 :: dt).length :=
      Nat.max_eq_right (by simp)
    rw [hmax]

/-- C1: with distinct dimension and option ids (the data-model
invariant), `statusById` assigns to every option the status computed by
the loop body, whose squared distance is the square of the spec's
root-mean-square of (coordinate - preference) over all dimensions
(missing coordinates read as 0.5), whose region membership is ray
casting over the first two dimensions' coordinates when the polygon has
at least 3 vertices and true otherwise, and whose composite score is
`(1 - distance) * (1 if inside else 0.75)`. -/
theorem C1_computeStatus_spec (dims : List Dim) (poly : List Point) (opts : List Opt)
    (hd : (dims.map Dim.id).Nodup) (ho : (opts.map Opt.id).Nodup)
    (o : Opt) (hmem : o ∈ opts) :
    recGet (statusById dims poly opts) o.id = some (optionStatus dims poly o) ∧
    (optionStatus dims poly o).distSq = specDistSq dims o ∧
    (optionStatus dims poly o).inside = specInside dims poly o ∧
    score (Real.sqrt ((optionStatus dims poly o).distSq : ℝ))
        (optionStatus dims poly o).inside =
      (1 - Real.sqrt ((specDistSq dims o : ℚ) : ℝ)) *
        (if specInside dims poly o then 1 else 3/4) := by
  refine ⟨?_, optionStatus_distSq_spec dims poly o hd,
    optionStatus_inside_spec dims poly o, ?_⟩
  · rw [statusById_eq_map]
    apply recGet_of_mem_nodup
    · rw [List.map_map]
      have hcomp : (Prod.fst ∘ fun x : Opt => (x.id, optionStatus dims poly x)) = Opt.id := rfl
      rw [hcomp]
      exact ho
    · exact List.mem_map.mpr ⟨o, hmem, rfl⟩
  · rw [optionStatus_distSq_spec dims poly o hd, optionStatus_inside_spec dims poly o]
    simp only [score]

/-- Witness for C1 on a one-dimension, one-option configuration. -/
theorem C1_computeStatus_spec_witness :
    recGet (statusById [⟨str "a", str "D", str "L", str "R", 1/2⟩] []
        [⟨str "o", [], [], [(str "a", 1/2)]⟩]) (str "o") =
      some (optionStatus [⟨str "a", str "D", str "L", str "R", 1/2⟩] []
        ⟨str "o", [], [], [(str "a", 1/2)]⟩) ∧
    (optionStatus [⟨str "a", str "D", str "L", str "R", 1/2⟩] []
        ⟨str "o", [], [], [(str "a", 1/2)]⟩).distSq =
      specDistSq [⟨str "a", str "D", str "L", str "R", 1/2⟩]
        ⟨str "o", [], [], [(str "a", 1/2)]⟩ := by
  have h := C1_computeStatus_spec [⟨str "a", str "D", str "L", str "R", 1/2⟩] []
    [⟨str "o", [], [], [(str "a", 1/2)]⟩] (by decide) (by decide)
    ⟨str "o", [], [], [(str "a", 1/2)]⟩ (List.mem_singleton.mpr rfl)
  exact ⟨h.1, h.2.1⟩

-- -------------------- C8 --------------------

theorem recGet_append_two (l : List (Str × ℚ)) (k1 k2 : Str) (v1 v2 : ℚ)
    (hne : k2 ≠ k1) :
    recGet (l ++ [(k1, v1), (k2, v2)]) k1 = some v1 ∧
    recGet (l ++ [(k1, v1), (k2, v2)]) k2 = some v2 := by
  constructor
  · rw [recGet_append]
    simp [recGet, hne]
  · rw [recGet_append]
    simp [recGet]

theorem find?_map_rename (l : List Opt) (id nm : Str) :
    ((l.map (fun x => if x.id = id then { x with name := nm } else x)).find?
        (fun x => x.id == id)) =
      (l.find? (fun x => x.id == id)).map
        (fun x => if x.id = id then { x with name := nm } else x) := by
  rw [List.find?_map]
  have hfun : ((fun x : Opt => x.id == id) ∘
      fun x => if x.id = id then { x with name := nm } else x) =
      fun x : Opt => x.id == id := by
    funext x
    simp only [Function.comp]
    by_cases h : x.id = id
    · rw [if_pos h]
    · rw [if_neg h]
  rw [hfun]

/-- C8: the interaction machine never enters the option-dragging state
for an unnamed option.  From idle, pointer-down on an unnamed option's
marker updates the selection but leaves the machine idle with the
option list untouched, and a subsequent pointer-move changes nothing; in
contrast, after naming the option (non-empty trimmed name) the same
pointer-down/pointer-move sequence enters `draggingOption` and writes
the moved position (`fromSvg` of the pointer) into the option's first
two dimension coordinates. -/
theorem C8_unnamed_options_not_draggable (s : AppState) (id : Str) (o : Opt)
    (q : Point) (nm : Str) (d0 d1 : Dim)
    (hfind : s.options.find? (fun x => x.id == id) = some o)
    (hidle : s.dragMode = DragMode.idle)
    (hunnamed : trim o.name = [])
    (hnm : trim nm ≠ [])
    (hid : id ≠ [])
    (hd0 : s.dims[0]? = some d0) (hd1 : s.dims[1]? = some d1)
    (h0ne : d0.id ≠ []) (h1ne : d1.id ≠ []) (h01 : d0.id ≠ d1.id) :
    (steps s [.mouseDownOption id]).selectedOptionId = some id ∧
    (steps s [.mouseDownOption id]).dragMode = DragMode.idle ∧
    (steps s [.mouseDownOption id]).options = s.options ∧
    steps s [.mouseDownOption id, .mouseMove q] = steps s [.mouseDownOption id] ∧
    (steps s [.mouseDownOption id, .mouseMove q, .setName id nm,
      .mouseDownOption id]).dragMode = DragMode.optionMarker ∧
    (steps s [.mouseDownOption id, .mouseMove q, .setName id nm,
      .mouseDownOption id]).dragOptionId = some id ∧
    (∀ x ∈ (steps s [.mouseDownOption id, .mouseMove q, .setName id nm,
        .mouseDownOption id, .mouseMove q]).options, x.id = id →
      recGet x.scores d0.id = some (fromSvg q).x ∧
      recGet x.scores d1.id = some (fromSvg q).y) := by
  have hnamedEmpty : (trim o.name).isEmpty = true := by
    rw [hunnamed]
    rfl
  have hnmEmpty : (trim nm).isEmpty = false := by
    rcases he : (trim nm).isEmpty with _ | _
    · rfl
    · exact absurd (List.isEmpty_iff.mp he) hnm
  have h1 : step s (.mouseDownOption id) = { s with selectedOptionId := some id } := by
    simp [step, hfind, hnamedEmpty]
  have h2 : step { s with selectedOptionId := some id } (.mouseMove q) =
      { s with selectedOptionId := some id } := by
    simp only [step]
    rw [show ({ s with selectedOptionId := some id } : AppState).dragMode = DragMode.idle
      from hidle]
  have h3 : step { s with selectedOptionId := some id } (.setName id nm) =
      { s with
        selectedOptionId := some id
        options := s.options.map
          (fun x => if x.id = id then { x with name := nm } else x) } :=
    rfl
  have hoid : o.id = id := by
    have hp := List.find?_some hfind
    simpa using hp
  have hfind2 : ((s.options.map
      (fun x => if x.id = id then { x with name := nm } else x)).find?
        (fun x => x.id == id)) = some { o with name := nm } := by
    rw [find?_map_rename, hfind]
    simp only [Option.map_some']
    rw [if_pos hoid]
  have h4 : step { s with
      selectedOptionId := some id
      options := s.options.map
        (fun x => if x.id = id then { x with name := nm } else x) }
      (.mouseDownOption id) =
      { s with
        selectedOptionId := some id
        options := s.options.map
          (fun x => if x.id = id then { x with name := nm } else x)
        dragOptionId := some id
        dragMode := DragMode.optionMarker } := by
    simp [step, hfind2, hnmEmpty]
  have h5 : step { s with
      selectedOptionId := some id
      options := s.options.map
        (fun x => if x.id = id then { x with name := nm } else x)
      dragOptionId := some id
      dragMode := DragMode.optionMarker }
      (.mouseMove q) =
      { s with
        selectedOptionId := some id
        options := (s.options.map
          (fun x => if x.id = id then { x with name := nm } else x)).map
            (fun x => if x.id = id then
              { x with scores :=
                x.scores ++ [(d0.id, (fromSvg q).x), (d1.id, (fromSvg q).y)] }
            else x)
        dragOptionId := some id
        dragMode := DragMode.optionMarker } := by
    simp only [step]
    rw [show ({ s with
      selectedOptionId := some id
      options := s.options.map
        (fun x => if x.id = id then { x with name := nm } else x)
      dragOptionId := some id
      dragMode := DragMode.optionMarker } : AppState).dims = s.dims
      from rfl]
    rw [hd0, hd1]
    simp [hid, h0ne, h1ne]
  have hsteps1 : steps s [.mouseDownOption id] = { s with selectedOptionId := some id } := by
    simp [steps, h1]
  have hsteps2 : steps s [.mouseDownOption id, .mouseMove q] =
      { s with selectedOptionId := some id } := by
    simp [steps, h1, h2]
  have hsteps4 : steps s [.mouseDownOption id, .mouseMove q, .setName id nm,
      .mouseDownOption id] =
      { s with
        selectedOptionId := some id
        options := s.options.map
          (fun x => if x.id = id then { x with name := nm } else x)
        dragOptionId := some id
        dragMode := DragMode.optionMarker } := by
    simp [steps, h1, h2, h3, h4]
  have hsteps5 : steps s [.mouseDownOption id, .mouseMove q, .setName id nm,
      .mouseDownOption id, .mouseMove q] =
      { s with
        selectedOptionId := some id
        options := (s.options.map
          (fun x => if x.id = id then { x with name := nm } else x)).map
            (fun x => if x.id = id then
              { x with scores :=
                x.scores ++ [(d0.id, (fromSvg q).x), (d1.id, (fromSvg q).y)] }
            else x)
        dragOptionId := some id
        dragMode := DragMode.optionMarker } := by
    simp [steps, h1, h2, h3, h4, h5]
  refine ⟨by rw [hsteps1], by rw [hsteps1]; exact hidle, by rw [hsteps1],
    by rw [hsteps2, hsteps1], by rw [hsteps4], by rw [hsteps4], ?_⟩
  intro x hx hxid
  rw [hsteps5] at hx
  simp only [List.mem_map] at hx
  obtain ⟨y, hy, hupd⟩ := hx
  by_cases hyid : y.id = id
  · rw [if_pos hyid] at hupd
    subst hupd
    exact recGet_append_two y.scores d0.id d1.id (fromSvg q).x (fromSvg q).y
      (Ne.symm h01)
  · rw [if_neg hyid] at hupd
    subst hupd
    exact absurd hxid hyid

/-- Witness for C8 on a concrete two-dimension state with one unnamed
option that is selected, left undraggable, then named "A" and dragged. -/
theorem C8_unnamed_options_not_draggable_witness :
    (steps ⟨[⟨str "x", str "X", str "L", str "R", 1/2⟩,
        ⟨str "y", str "Y", str "L", str "R", 1/2⟩],
      [⟨str "o1", [], [], []⟩], [], none, none, none, DragMode.idle⟩
      [.mouseDownOption (str "o1")]).selectedOptionId = some (str "o1") ∧
    (steps ⟨[⟨str "x", str "X", str "L", str "R", 1/2⟩,
        ⟨str "y", str "Y", str "L", str "R", 1/2⟩],
      [⟨str "o1", [], [], []⟩], [], none, none, none, DragMode.idle⟩
      [.mouseDownOption (str "o1")]).dragMode = DragMode.idle ∧
    (steps ⟨[⟨str "x", str "X", str "L", str "R", 1/2⟩,
        ⟨str "y", str "Y", str "L", str "R", 1/2⟩],
      [⟨str "o1", [], [], []⟩], [], none, none, none, DragMode.idle⟩
      [.mouseDownOption (str "o1"), .mouseMove ⟨100, 100⟩, .setName (str "o1") (str "A"),
        .mouseDownOption (str "o1")]).dragMode = DragMode.optionMarker := by
  have h := C8_unnamed_options_not_draggable
    ⟨[⟨str "x", str "X", str "L", str "R", 1/2⟩,
      ⟨str "y", str "Y", str "L", str "R", 1/2⟩],
      [⟨str "o1", [], [], []⟩], [], none, none, none, DragMode.idle⟩
    (str "o1") ⟨str "o1", [], [], []⟩ ⟨100, 100⟩ (str "A")
    ⟨str "x", str "X", str "L", str "R", 1/2⟩ ⟨str "y", str "Y", str "L", str "R", 1/2⟩
    rfl rfl rfl (by decide) (by decide) rfl rfl (by decide) (by decide) (by decide)
  exact ⟨h.1, h.2.1, h.2.2.2.2.1⟩

-- -------------------- C7 --------------------

theorem head?_dropWhile_not (p : Char → Bool) :
    ∀ (l : Str) (c : Char), (l.dropWhile p).head? = some c → p c = false := by
  intro l
  induction l with
  | nil =>
    intro c h
    simp [List.dropWhile] at h
  | cons a t ih =>
    intro c h
    rw [List.dropWhile_cons] at h
    by_cases hp : p a
    · rw [if_pos hp] at h
      exact ih c h
    · rw [if_neg hp] at h
      simp only [List.head?_cons] at h
      rw [← Option.some.inj h]
      simpa using hp

theorem getLast?_map_str (f : Char → Char) (l : Str) :
    (l.map f).getLast? = (l.getLast?).map f := by
  rw [← List.head?_reverse, ← List.head?_reverse, ← List.map_reverse, List.head?_map]

theorem getLast?_mem_str (l : Str) (a : Char) (h : l.getLast? = some a) : a ∈ l := by
  rw [← List.head?_reverse] at h
  exact List.mem_reverse.mp (List.mem_of_mem_head? (h ▸ Option.mem_def.mpr rfl))

theorem trim_head_not_ws (x : Str) (c : Char) (h : (trim x).head? = some c) :
    isWs c = false :=
  head?_dropWhile_not isWs (trimR x) c h

theorem trim_getLast_not_ws (x : Str) (c : Char) (h : (trim x).getLast? = some c) :
    isWs c = false := by
  have hsuf : (trimR x).dropWhile isWs <:+ trimR x := List.dropWhile_suffix isWs
  obtain ⟨w, hw⟩ := hsuf
  have h2 : (trimR x).getLast? = some c := by
    rw [← hw, List.getLast?_append]
    have h3 : ((trimR x).dropWhile isWs).getLast? = some c := h
    rw [h3, Option.or_some]
  have h4 : (List.dropWhile isWs x.reverse).head? = some c := by
    have h5 : (List.dropWhile isWs x.reverse).reverse.getLast? = some c := h2
    rwa [List.getLast?_reverse] at h5
  exact head?_dropWhile_not isWs x.reverse c h4

theorem trim_ne_nil_of_mem (x : Str) (c : Char) (hc : c ∈ x) (hw : isWs c = false) :
    trim x ≠ [] := by
  intro hnil
  have hall : ∀ a ∈ trimR x, isWs a = true := List.dropWhile_eq_nil_iff.mp hnil
  have hx : x = trimR x ++ (List.takeWhile isWs x.reverse).reverse := by
    calc x = (x.reverse).reverse := (List.reverse_reverse x).symm
    _ = (List.takeWhile isWs x.reverse ++ List.dropWhile isWs x.reverse).reverse := by
        rw [List.takeWhile_append_dropWhile]
    _ = trimR x ++ (List.takeWhile isWs x.reverse).reverse := by
        rw [List.reverse_append]
        rfl
  rw [hx] at hc
  rcases List.mem_append.mp hc with hin | hin
  · rw [hall c hin] at hw
    exact Bool.noConfusion hw
  · have := List.mem_takeWhile_imp (List.mem_reverse.mp hin)
    rw [this] at hw
    exact Bool.noConfusion hw

theorem isPre_iff : ∀ (n h : Str), isPre n h = true ↔ n <+: h := by
  intro n
  induction n with
  | nil =>
    intro h
    simp [isPre, List.nil_prefix]
  | cons a as ih =>
    intro h
    cases h with
    | nil =>
      simp [isPre]
    | cons b bs =>
      simp [isPre, List.cons_prefix_cons, ih bs, Bool.and_eq_true, beq_iff_eq]

theorem idxOf_prefix_drop : ∀ (hay needle : Str) (v : ℕ),
    idxOf hay needle = some v → needle <+: hay.drop v := by
  intro hay
  induction hay with
  | nil =>
    intro needle v h
    simp only [idxOf] at h
    by_cases hp : isPre needle []
    · rw [if_pos hp] at h
      rw [← Option.some.inj h]
      exact (isPre_iff needle []).mp hp
    · rw [if_neg hp] at h
      exact Option.noConfusion h
  | cons a t ih =>
    intro needle v h
    simp only [idxOf] at h
    by_cases hp : isPre needle (a :: t)
    · rw [if_pos hp] at h
      rw [← Option.some.inj h]
      exact (isPre_iff needle (a :: t)).mp hp
    · rw [if_neg hp] at h
      rcases ho : idxOf t needle with _ | w
      · rw [ho] at h
        exact Option.noConfusion h
      · rw [ho] at h
        simp only [Option.map_some'] at h
        rw [← Option.some.inj h]
        exact ih needle w ho

theorem lowerChar_eq_space (c : Char) (h : lowerChar c = ' ') : c = ' ' := by
  unfold lowerChar at h
  split at h
  all_goals first
    | exact h
    | exact absurd h (by decide)

/-- Counterexample for C7 as stated: the phrase " vs y" contains the
literal separator " vs ", but `inferAxis` trims the phrase first, after
which the separator is gone, so the function falls through to the
generic fallback instead of returning "y" as the right pole label. -/
theorem C7_vs_rule_counterexample :
    containsStr (str " vs y") (str " vs ") = true ∧
    inferAxis (str " vs y") = ⟨str "vs y", str "Lower", str "Higher"⟩ ∧
    (inferAxis (str " vs y")).right ≠ str "y" := by
  refine ⟨by decide, by decide, by decide⟩

/-- C7 (amended): for every phrase whose trimmed text contains the
separator " vs " case-insensitively (at first lower-cased index `v`),
`inferAxis` returns the trimmed text before the separator as the left
pole label, the trimmed text after it as the right pole label, and the
axis name "<left> ↔ <right>" - both labels being non-empty - taking
precedence over the "/" rule, the keyword table and the fallback. -/
theorem C7_vs_rule_amended (text : Str) (v : ℕ)
    (h : idxOf (lowerStr (trim text)) (str " vs ") = some v) :
    0 < v ∧
    trim ((trim text).take v) ≠ [] ∧
    trim ((trim text).drop (v + 4)) ≠ [] ∧
    inferAxis text =
      ⟨trim ((trim text).take v) ++ str " ↔ " ++ trim ((trim text).drop (v + 4)),
        trim ((trim text).take v), trim ((trim text).drop (v + 4))⟩ := by
  have hdrop := idxOf_prefix_drop _ _ _ h
  have hlen4 : v + 4 ≤ (trim text).length := by
    have h1 := hdrop.length_le
    rw [List.length_drop] at h1
    have h2 : (lowerStr (trim text)).length = (trim text).length := List.length_map _ _
    rw [h2] at h1
    have h3 : (str " vs ").length = 4 := rfl
    rw [h3] at h1
    omega
  rcases hs : trim text with _ | ⟨c, cs⟩
  · rw [hs] at hlen4
    simp at hlen4
  · rw [hs] at h hdrop hlen4
    have hc : isWs c = false := trim_head_not_ws text c (by rw [hs]; rfl)
    have hv : 0 < v := by
      rcases Nat.eq_zero_or_pos v with hv0 | hv0
      · subst hv0
        rw [List.drop_zero] at hdrop
        obtain ⟨t0, ht0⟩ := hdrop
        have hhead : (lowerStr (c :: cs)).head? = some ' ' := by
          rw [← ht0]
          rfl
        simp only [lowerStr, List.map_cons, List.head?_cons] at hhead
        have hcsp := lowerChar_eq_space c (Option.some.inj hhead)
        rw [hcsp] at hc
        exact Bool.noConfusion hc
      · exact hv0
    rcases hgl : (c :: cs).getLast? with _ | g
    · rw [List.getLast?_eq_none_iff] at hgl
      exact List.noConfusion hgl
    have hgw : isWs g = false := trim_getLast_not_ws text g (by rw [hs]; exact hgl)
    have hlt : v + 4 < (c :: cs).length := by
      rcases Nat.lt_or_ge (v + 4) (c :: cs).length with hlt | hge
      · exact hlt
      · exfalso
        have heq : v + 4 = (c :: cs).length := by omega
        have hde : (lowerStr (c :: cs)).drop v = str " vs " := by
          have hpre := idxOf_prefix_drop _ _ _ h
          refine (hpre.eq_of_length ?_).symm
          rw [List.length_drop]
          simp only [lowerStr, List.length_map]
          rw [← heq]
          have h4 : (str " vs ").length = 4 := rfl
          omega
        have hlast2 : (lowerStr (c :: cs)).getLast? = some ' ' := by
          rw [← List.take_append_drop v (lowerStr (c :: cs)), List.getLast?_append, hde]
          rfl
        rw [lowerStr, getLast?_map_str, hgl] at hlast2
        simp only [Option.map_some'] at hlast2
        have hgsp := lowerChar_eq_space g (Option.some.inj hlast2)
        rw [hgsp] at hgw
        exact Bool.noConfusion hgw
    have ha : trim ((c :: cs).take v) ≠ [] := by
      rcases v with _ | w
      · exact absurd hv (by omega)
      · exact trim_ne_nil_of_mem _ c (by simp [List.take_cons]) hc
    have hb : trim ((c :: cs).drop (v + 4)) ≠ [] := by
      have hne : (c :: cs).drop (v + 4) ≠ [] := by
        rw [← List.length_pos, List.length_drop]
        omega
      rcases hdl : ((c :: cs).drop (v + 4)).getLast? with _ | gd
      · rw [List.getLast?_eq_none_iff] at hdl
        exact absurd hdl hne
      · have hsame : (c :: cs).getLast? = some gd := by
          rw [← List.take_append_drop (v + 4) (c :: cs), List.getLast?_append, hdl]
          rfl
        have hgdg : gd = g := Option.some.inj (hsame.symm.trans hgl)
        refine trim_ne_nil_of_mem _ gd (getLast?_mem_str _ _ hdl) ?_
        rw [hgdg]
        exact hgw
    refine ⟨hv, ha, hb, ?_⟩
    simp only [inferAxis, hs, h]
    rw [if_pos hv, if_pos ⟨ha, hb⟩]

/-- Witness for C7 (amended) on the phrase "x vs y". -/
theorem C7_vs_rule_amended_witness :
    inferAxis (str "x vs y") =
      ⟨trim ((trim (str "x vs y")).take 1) ++ str " ↔ " ++
        trim ((trim (str "x vs y")).drop (1 + 4)),
        trim ((trim (str "x vs y")).take 1),
        trim ((trim (str "x vs y")).drop (1 + 4))⟩ ∧
    trim ((trim (str "x vs y")).take 1) ≠ [] ∧
    (inferAxis (str "x vs y")).left = str "x" ∧
    (inferAxis (str "x vs y")).right = str "y" := by
  have h := C7_vs_rule_amended (str "x vs y") 1 (by decide)
  exact ⟨h.2.2.2, h.2.1, by decide, by decide⟩

end DecisionMapper
